import Mathlib

/-!
Verification of the routing and session layer of a distributed sequential
model executor (spec.md) against a shallow embedding.

The repository ships the throughput measurement utility
(`src/petals/server/throughput.py`) and the client-side tests
(`tests/test_chained_calls.py`, `tests/test_remote_sequential.py`,
`tests/test_sequence_manager.py`). The routing core itself
(RemoteSequenceManager / RemoteSequential / inference sessions) is not in
the sources, so those components are modelled from the spec, as marked in
each definition's doc comment. Numerical values are modelled over `ℚ`.
-/

namespace Petals

/-! ## Data model -/

/-- A hidden-state tensor: a vector of rational components. -/
abbrev Tensor := List ℚ

/-- Modelled from the spec: one block of the sequential model (the numeric
engine is an external collaborator, §1/§6). A block carries a forward
function and a vector-Jacobian product `vjp input gradOut = gradIn` used by
the backward pass. -/
structure Block where
  f : Tensor → Tensor
  vjp : Tensor → Tensor → Tensor

/-- Peer identity (spec §3 PeerRecord: "peer identity"). -/
abbrev Peer := Nat

/-- A span of a materialized Sequence: the layer range `[fst, snd.fst)`
assigned to peer `snd.snd` (spec §3 Sequence). -/
abbrev Span := Nat × Nat × Peer

/-- The blocks of the model for the layer range `[s, f)`. -/
def rangeBlocks (model : Nat → Block) (s f : Nat) : List Block :=
  (List.range' s (f - s)).map model

/-- `allclose u v tol`: same shape and componentwise absolute difference at
most `tol` (the model of `torch.allclose(u, v, rtol=0, atol=tol)`). -/
def allclose (u v : Tensor) (tol : ℚ) : Prop :=
  u.length = v.length ∧ ∀ p ∈ u.zip v, |p.1 - p.2| ≤ tol

instance (u v : Tensor) (tol : ℚ) : Decidable (allclose u v tol) := by
  unfold allclose
  exact instDecidableAnd

/-! ## ChainExecutor: one-shot forward and backward (spec §4.3) -/

/-- Local sequential reference forward pass: apply each block in order. -/
def localForward (blocks : List Block) (x : Tensor) : Tensor :=
  blocks.foldl (fun h b => b.f h) x

/-- Local sequential reference backward pass: recompute activations and
propagate the output gradient back through the blocks in reverse order,
returning the input gradient. -/
def localBackward (blocks : List Block) (x : Tensor) (g : Tensor) : Tensor :=
  match blocks with
  | [] => g
  | b :: rest => b.vjp x (localBackward rest (b.f x) g)

/-- Modelled from the spec (§4.3 ChainExecutor): a materialized Sequence is
a list of spans, each span being the blocks served by one peer; the forward
pass iterates spans in order, feeding the output of span i as input to
span i+1, each hop executing its span's blocks. -/
def chainForward (spans : List (List Block)) (x : Tensor) : Tensor :=
  spans.foldl (fun h span => localForward span h) x

/-- Modelled from the spec (§4.3 ChainExecutor): the backward pass
traverses spans in reverse order, propagating gradient tensors hop-by-hop. -/
def chainBackward (spans : List (List Block)) (x : Tensor) (g : Tensor) : Tensor :=
  match spans with
  | [] => g
  | span :: rest => localBackward span x (chainBackward rest (localForward span x) g)

/-! ## SequenceManager.make_sequence (spec §4.2) -/

/-- Modelled from the spec (§4.2 algorithm for `make_sequence`): starting
from layer `e`, extend the current span "while the next required layer is
also served by the same chosen peer", never beyond `fin`. `fuel` bounds the
number of extensions. -/
def growSpan (lookup : Nat → List Peer) (p : Peer) (fin : Nat) :
    Nat → Nat → Nat
  | 0, e => e
  | fuel + 1, e =>
    if e < fin ∧ p ∈ lookup e then growSpan lookup p fin fuel (e + 1) else e

/-- Modelled from the spec (§4.2 algorithm for `make_sequence`): iterate
the required layer indices left to right; for each index not yet covered,
resolve candidates via the PeerDirectory `lookup`, apply the selection mode
`select` (which also receives the previously chosen peer, for the
adjacency rule of `random` mode), and extend the span while the same peer
serves the next layer. Returns `none` when no peer is available for a
required layer (`NoPeersAvailable`). -/
def makeSeqAux (lookup : Nat → List Peer)
    (select : Option Peer → List Peer → Option Peer) (fin : Nat) :
    Nat → Nat → Option Peer → Option (List Span)
  | 0, i, _ => if fin ≤ i then some [] else none
  | fuel + 1, i, prev =>
    if fin ≤ i then some []
    else
      match select prev (lookup i) with
      | none => none
      | some p =>
        let e := growSpan lookup p fin fuel (i + 1)
        match makeSeqAux lookup select fin fuel e (some p) with
        | none => none
        | some rest => some ((i, e, p) :: rest)

/-- Modelled from the spec (§4.2): `make_sequence(start, end, mode)`, with
the mode abstracted as a `select` function. -/
def makeSequence (lookup : Nat → List Peer)
    (select : Option Peer → List Peer → Option Peer) (start fin : Nat) :
    Option (List Span) :=
  makeSeqAux lookup select fin (fin - start) start none

/-- Modelled from the spec (§4.2 `random` mode): pick among the current
candidates via `rng`, but exclude the peer chosen immediately before when
an alternative exists. -/
def randomSelect (rng : List Peer → Option Peer)
    (prev : Option Peer) (cands : List Peer) : Option Peer :=
  match prev with
  | none => rng cands
  | some q =>
    let alt := cands.filter (fun r => decide (r ≠ q))
    if alt.isEmpty then rng cands else rng alt

/-- The layer indices covered by one span. -/
def spanLayers (s : Span) : List Nat :=
  List.range' s.1 (s.2.1 - s.1)

/-- `contiguousCover spans s f`: the spans are ordered, non-empty,
contiguous and gap-free, the first starting at `s`, each next span starting
where the previous one ended, and the last ending at `f`. -/
def contiguousCover : List Span → Nat → Nat → Prop
  | [], s, f => s = f
  | sp :: rest, s, f => sp.1 = s ∧ s < sp.2.1 ∧ contiguousCover rest sp.2.1 f

/-- `adjDistinct lookup prev spans`: each span's peer differs from the peer
of the immediately preceding span whenever the directory offered an
alternative candidate at that span's first layer. -/
def adjDistinct (lookup : Nat → List Peer) : Option Peer → List Span → Prop
  | _, [] => True
  | prev, sp :: rest =>
    (∀ q, prev = some q → (∃ r ∈ lookup sp.1, r ≠ q) → sp.2.2 ≠ q) ∧
      adjDistinct lookup (some sp.2.2) rest

/-! ## SequenceManager lifecycle (spec §3, §4.2, §5) -/

/-- Modelled from the spec (§3 "SequenceManager lifecycle", §5): the
manager's observable lifecycle state — whether it is alive, whether the
background refresh task is running, and whether the readiness signal (set
once the first directory population completes) is set. -/
structure ManagerState where
  alive : Bool
  taskRunning : Bool
  ready : Bool
deriving DecidableEq

/-- Modelled from the spec (§3): the manager starts its background refresh
task on construction; the readiness signal is initially unset. -/
def initialManager : ManagerState :=
  { alive := true, taskRunning := true, ready := false }

/-- Lifecycle events: one completed directory population by the background
refresh task, a `shutdown()` call, or any read-only caller operation
(`is_alive`, `make_sequence`), which does not affect the lifecycle. -/
inductive MEvent
  | refresh
  | shutdown
  | query
deriving DecidableEq

/-- Modelled from the spec (§3, §4.2, §5): a refresh completion sets the
readiness signal (only the running background task populates the
directory); `shutdown()` stops the background task and leaves the manager
not alive; read-only operations leave the state unchanged. -/
def mstep (s : ManagerState) : MEvent → ManagerState
  | .refresh => if s.taskRunning then { s with ready := true } else s
  | .shutdown => { s with alive := false, taskRunning := false }
  | .query => s

/-- Run the manager through a list of lifecycle events. -/
def mrun (s : ManagerState) (es : List MEvent) : ManagerState :=
  es.foldl mstep s

/-- Modelled from the spec (§3): `is_alive()` reflects whether the
background task is running. -/
def isAlive (s : ManagerState) : Bool :=
  s.alive

/-! ## InferenceSession: multi-step decoding with caches (spec §4.4) -/

/-- Modelled from the spec (§4.4, glossary "Cache"): a block used in
incremental decoding consumes an optional per-block recurrent cache
(`none` before the first step) together with one position's hidden state,
and returns the output plus the updated cache. -/
structure CBlock (C : Type) where
  step : Option C → Tensor → Tensor × C

/-- Local reference for one decoding step: feed one position through the
blocks in order, each block consuming and updating its own cache entry. A
missing cache entry is treated as an empty cache. -/
def runBlocksStep {C : Type} :
    List (CBlock C) → List (Option C) → Tensor → Tensor × List (Option C)
  | [], _, x => (x, [])
  | b :: bs, [], x =>
    ((runBlocksStep bs [] (b.step none x).1).1,
      some (b.step none x).2 :: (runBlocksStep bs [] (b.step none x).1).2)
  | b :: bs, c :: cs, x =>
    ((runBlocksStep bs cs (b.step c x).1).1,
      some (b.step c x).2 :: (runBlocksStep bs cs (b.step c x).1).2)

/-- Modelled from the spec (§4.4 `step`): feed one position's hidden state
through the pinned chain in order, each span consuming and updating its own
cache entry. -/
def runSpansStep {C : Type} :
    List (List (CBlock C)) → List (List (Option C)) → Tensor →
      Tensor × List (List (Option C))
  | [], _, x => (x, [])
  | s :: ss, [], x =>
    ((runSpansStep ss [] (runBlocksStep s [] x).1).1,
      (runBlocksStep s [] x).2 :: (runSpansStep ss [] (runBlocksStep s [] x).1).2)
  | s :: ss, c :: cs, x =>
    ((runSpansStep ss cs (runBlocksStep s c x).1).1,
      (runBlocksStep s c x).2 :: (runSpansStep ss cs (runBlocksStep s c x).1).2)

/-- Modelled from the spec (§4.4): an inference session over the pinned
chain `spans`, fed the single-position inputs `xs` via `step` in order;
each step reuses the caches accumulated by the previous steps. Returns the
per-step outputs. -/
def sessionSteps {C : Type} (spans : List (List (CBlock C))) :
    List (List (Option C)) → List Tensor → List Tensor
  | _, [] => []
  | cs, x :: xs =>
    (runSpansStep spans cs x).1 ::
      sessionSteps spans (runSpansStep spans cs x).2 xs

/-- Local reference execution: per-block caches carried across steps. -/
def localSteps {C : Type} (blocks : List (CBlock C)) :
    List (Option C) → List Tensor → List Tensor
  | _, [] => []
  | cs, x :: xs =>
    (runBlocksStep blocks cs x).1 ::
      localSteps blocks (runBlocksStep blocks cs x).2 xs

/-- Modelled from the spec (§4.4): opening a session allocates empty
per-span caches. -/
def initCaches {C : Type} (spans : List (List (CBlock C))) :
    List (List (Option C)) :=
  spans.map (fun s => s.map (fun _ => (none : Option C)))

/-- Per-span cache lists line up with the pinned chain: one cache list per
span, of that span's length. -/
def Aligned {C : Type} (spans : List (List (CBlock C)))
    (cs : List (List (Option C))) : Prop :=
  List.Forall₂ (fun s c => c.length = s.length) spans cs

/-! ## Per-layer prompts (spec §4.3, tests) -/

/-- Additive prompt injection: add the prompt elementwise to the first
`p.length` positions of the hidden state, leaving the rest unchanged
(`outputs_ref[:, : block_prompt.shape[1]] += block_prompt`). -/
def addPrompt : List ℚ → Tensor → Tensor
  | [], h => h
  | _ :: _, [] => []
  | p :: ps, x :: xs => (x + p) :: addPrompt ps xs

/-- Local reference forward with per-layer prompts: before each block runs,
that block's prompt is added to the start of the hidden state. -/
def localPromptForward : List (Block × Tensor) → Tensor → Tensor
  | [], h => h
  | bp :: rest, h => localPromptForward rest (bp.1.f (addPrompt bp.2 h))

/-- Local reference backward with prompts: returns the input gradient and
the per-layer prompt gradients (the prompt receives the first `p.length`
components of the gradient at that block's input, since injection is
additive on those positions). -/
def localPromptBackward : List (Block × Tensor) → Tensor → Tensor →
    Tensor × List Tensor
  | [], _, g => (g, [])
  | bp :: rest, h, g =>
    (bp.1.vjp (addPrompt bp.2 h)
        (localPromptBackward rest (bp.1.f (addPrompt bp.2 h)) g).1,
      (bp.1.vjp (addPrompt bp.2 h)
          (localPromptBackward rest (bp.1.f (addPrompt bp.2 h)) g).1).take
          bp.2.length ::
        (localPromptBackward rest (bp.1.f (addPrompt bp.2 h)) g).2)

/-- Modelled from the spec (§4.3): the chain executor with per-layer
prompts distributed to spans ("optional per-layer prompt tensors that get
additively injected into the hidden state at the start of each span per
that span's assigned slice"); spans run in order, hop-by-hop. -/
def chainPromptForward : List (List (Block × Tensor)) → Tensor → Tensor
  | [], h => h
  | s :: ss, h => chainPromptForward ss (localPromptForward s h)

/-- Modelled from the spec (§4.3): backward over spans in reverse order,
collecting each span's prompt gradients. -/
def chainPromptBackward : List (List (Block × Tensor)) → Tensor → Tensor →
    Tensor × List Tensor
  | [], _, g => (g, [])
  | s :: ss, h, g =>
    ((localPromptBackward s h
        (chainPromptBackward ss (localPromptForward s h) g).1).1,
      (localPromptBackward s h
          (chainPromptBackward ss (localPromptForward s h) g).1).2 ++
        (chainPromptBackward ss (localPromptForward s h) g).2)

/-! ## Throughput measurement (src/petals/server/throughput.py) -/

/-- `measure_network_rps`: from the measured download and upload rates
(bits per second) and the model hidden size, compute requests per second as
`min(download, upload) / (hidden_size * 16)`; raise `ValueError` when the
result is 0 (throughput.py lines 116–135). -/
def measure_network_rps (download upload : ℚ) (hidden_size : ℚ) :
    Except String ℚ :=
  let bits_per_request := hidden_size * 16
  let network_rps := min download upload / bits_per_request
  if network_rps = 0 then
    Except.error "speedtest has returned network_rps == 0"
  else
    Except.ok network_rps

/-- `measure_throughput_info`: start from the compute rate; try to take the
minimum with the network rate, and on any exception from the network
measurement keep the compute-only rate (throughput.py lines 91–113). The
network measurement's outcome is passed in as an `Except` value. -/
def measure_throughput_info (compute_rps : ℚ) (network : Except String ℚ) :
    ℚ :=
  match network with
  | Except.ok n => min compute_rps n
  | Except.error _ => compute_rps

/-! ## Concrete witness data -/

/-- A concrete block used by witnesses: shifts every component by `i` and
passes gradients through unchanged. -/
def wBlock (i : Nat) : Block :=
  { f := fun h => h.map (fun a => a + (i : ℚ)),
    vjp := fun _ g => g }

/-- A concrete two-span sequence over blocks 3, 4, 5. -/
def wSpans : List (List Block) :=
  [[wBlock 3, wBlock 4], [wBlock 5]]

/-- A concrete cached block used by witnesses: prepends the step counter
and increments it. -/
def wCBlock (i : Nat) : CBlock Nat :=
  { step := fun c x => (((i + c.getD 0 : Nat) : ℚ) :: x, c.getD 0 + 1) }

/-- A concrete pinned chain of cached blocks split into two spans. -/
def wCSpans : List (List (CBlock Nat)) :=
  [[wCBlock 3], [wCBlock 4]]

/-- Concrete directory for the spec §8 scenario: peer 0 serves layers
`[0,5)`, peer 1 serves layers `[5,10)`. -/
def wLookup (j : Nat) : List Peer :=
  if j < 5 then [0] else [1]

/-- Concrete directory where peers 0 and 1 both serve layers `[0,2)` and
only peer 1 serves layers `[2,4)`. -/
def wLookupR (j : Nat) : List Peer :=
  if j < 2 then [0, 1] else [1]

/-- A concrete prompt-carrying chain: two spans over blocks 0 and 1 with
one-component prompts. -/
def wPSpans : List (List (Block × Tensor)) :=
  [[(wBlock 0, [1])], [(wBlock 1, [2])]]

/-! ## Helper lemmas: allclose and the chain executor -/

lemma mem_zip_self {α : Type u} {p : α × α} {l : List α} (hp : p ∈ l.zip l) :
    p.1 = p.2 := by
  induction l with
  | nil => cases hp
  | cons a as ih =>
    rw [List.zip_cons_cons] at hp
    rcases List.mem_cons.mp hp with h | h
    · simp [h]
    · exact ih h

lemma allclose_refl (u : Tensor) (tol : ℚ) (htol : 0 ≤ tol) :
    allclose u u tol := by
  refine ⟨rfl, ?_⟩
  intro p hp
  have h := mem_zip_self hp
  simp [h, htol]

lemma allclose_of_eq {u v : Tensor} (tol : ℚ) (htol : 0 ≤ tol)
    (h : u = v) : allclose u v tol := by
  subst h
  exact allclose_refl u tol htol

lemma localForward_append (l₁ l₂ : List Block) (x : Tensor) :
    localForward (l₁ ++ l₂) x = localForward l₂ (localForward l₁ x) := by
  simp [localForward, List.foldl_append]

lemma localForward_cons (b : Block) (rest : List Block) (x : Tensor) :
    localForward (b :: rest) x = localForward rest (b.f x) := by
  simp [localForward]

/-- Executing the chain span-by-span computes the same function as the
local sequential execution of the concatenated blocks. -/
lemma chainForward_eq_localForward (spans : List (List Block)) (x : Tensor) :
    chainForward spans x = localForward spans.flatten x := by
  induction spans generalizing x with
  | nil => simp [chainForward, localForward]
  | cons s rest ih =>
    rw [List.flatten_cons, localForward_append]
    rw [← ih]
    rfl

lemma localBackward_append (l₁ l₂ : List Block) (x g : Tensor) :
    localBackward (l₁ ++ l₂) x g =
      localBackward l₁ x (localBackward l₂ (localForward l₁ x) g) := by
  induction l₁ generalizing x with
  | nil => simp [localBackward, localForward]
  | cons b rest ih =>
    rw [List.cons_append]
    show (b.vjp x (localBackward (rest ++ l₂) (b.f x) g)) = _
    rw [ih, localForward_cons]
    rfl

/-- The hop-by-hop backward pass over spans equals the local sequential
backward pass over the concatenated blocks. -/
lemma chainBackward_eq_localBackward (spans : List (List Block)) (x g : Tensor) :
    chainBackward spans x g = localBackward spans.flatten x g := by
  induction spans generalizing x g with
  | nil => simp [chainBackward, localBackward]
  | cons s rest ih =>
    rw [List.flatten_cons, localBackward_append]
    show localBackward s x (chainBackward rest (localForward s x) g) = _
    rw [ih]

/-! ## Helper lemmas: make_sequence -/

lemma growSpan_ge (lookup : Nat → List Peer) (p : Peer) (fin : Nat) :
    ∀ fuel e, e ≤ growSpan lookup p fin fuel e := by
  intro fuel
  induction fuel with
  | zero => intro e; exact le_refl e
  | succ n ih =>
    intro e
    rw [growSpan]
    split
    · exact le_trans (Nat.le_succ e) (ih (e + 1))
    · exact le_refl e

lemma growSpan_le_fin (lookup : Nat → List Peer) (p : Peer) (fin : Nat) :
    ∀ fuel e, e ≤ fin → growSpan lookup p fin fuel e ≤ fin := by
  intro fuel
  induction fuel with
  | zero => intro e he; exact he
  | succ n ih =>
    intro e he
    rw [growSpan]
    split
    · next h => exact ih (e + 1) h.1
    · exact he

lemma contiguousCover_le {spans : List Span} :
    ∀ {s f : Nat}, contiguousCover spans s f → s ≤ f := by
  induction spans with
  | nil => intro s f h; exact le_of_eq h
  | cons sp rest ih =>
    intro s f h
    exact le_trans (le_of_lt h.2.1) (ih h.2.2)

/-- A contiguous cover's layer indices are exactly the requested range. -/
lemma contiguousCover_flatten {spans : List Span} :
    ∀ {s f : Nat}, contiguousCover spans s f →
      (spans.map spanLayers).flatten = List.range' s (f - s) := by
  induction spans with
  | nil =>
    intro s f h
    simp [contiguousCover] at h
    simp [h]
  | cons sp rest ih =>
    intro s f h
    obtain ⟨h1, h2, h3⟩ := h
    have hbf : sp.2.1 ≤ f := contiguousCover_le h3
    rw [List.map_cons, List.flatten_cons, ih h3]
    rw [spanLayers, h1]
    have hsb : s ≤ sp.2.1 := le_of_lt h2
    have hss : s + (sp.2.1 - s) = sp.2.1 := Nat.add_sub_cancel' hsb
    have key := List.range'_append_1 s (sp.2.1 - s) (f - sp.2.1)
    rw [hss] at key
    rw [key]
    congr 1
    omega

lemma makeSeqAux_covers (lookup : Nat → List Peer)
    (select : Option Peer → List Peer → Option Peer) (fin : Nat)
    (hsel : ∀ prev c, c ≠ [] → ∃ p, select prev c = some p ∧ p ∈ c) :
    ∀ fuel i prev, i ≤ fin → fin ≤ i + fuel →
      (∀ j, i ≤ j → j < fin → lookup j ≠ []) →
      ∃ spans, makeSeqAux lookup select fin fuel i prev = some spans ∧
        contiguousCover spans i fin := by
  intro fuel
  induction fuel with
  | zero =>
    intro i prev hle hfuel _
    refine ⟨[], ?_, ?_⟩
    · rw [makeSeqAux]
      have : fin ≤ i := by omega
      simp [this]
    · show i = fin
      omega
  | succ n ih =>
    intro i prev hle hfuel hlook
    by_cases hif : fin ≤ i
    · refine ⟨[], ?_, ?_⟩
      · rw [makeSeqAux]
        simp [hif]
      · show i = fin
        omega
    · push_neg at hif
      obtain ⟨p, hp, hpmem⟩ := hsel prev (lookup i) (hlook i (le_refl i) hif)
      set e := growSpan lookup p fin n (i + 1) with he
      have he1 : i + 1 ≤ e := growSpan_ge lookup p fin n (i + 1)
      have he2 : e ≤ fin := growSpan_le_fin lookup p fin n (i + 1) hif
      obtain ⟨rest, hrest, hcov⟩ :=
        ih e (some p) he2 (by omega) (fun j hj hjf => hlook j (by omega) hjf)
      refine ⟨(i, e, p) :: rest, ?_, ?_⟩
      · rw [makeSeqAux]
        simp only [not_le.mpr hif, if_false, hp, ← he, hrest]
      · refine ⟨rfl, ?_, ?_⟩
        · show i < e
          omega
        · show contiguousCover rest e fin
          exact hcov

/-- `make_sequence` succeeds and returns a contiguous gap-free cover of the
requested range whenever every required layer has a candidate and the
selection mode picks among the candidates. -/
lemma makeSequence_covers (lookup : Nat → List Peer)
    (select : Option Peer → List Peer → Option Peer) (start fin : Nat)
    (hrange : start ≤ fin)
    (hsel : ∀ prev c, c ≠ [] → ∃ p, select prev c = some p ∧ p ∈ c)
    (hlook : ∀ j, start ≤ j → j < fin → lookup j ≠ []) :
    ∃ spans, makeSequence lookup select start fin = some spans ∧
      contiguousCover spans start fin := by
  exact makeSeqAux_covers lookup select fin hsel (fin - start) start none
    hrange (by omega) hlook

/-- In `random` mode the selected peer is among the candidates, and it
differs from the previously chosen peer whenever an alternative exists. -/
lemma randomSelect_ne_prev (rng : List Peer → Option Peer)
    (hrng : ∀ l : List Peer, l ≠ [] → ∃ p, rng l = some p ∧ p ∈ l)
    (q : Peer) (cands : List Peer) (p : Peer)
    (hp : randomSelect rng (some q) cands = some p)
    (halt : ∃ r ∈ cands, r ≠ q) : p ≠ q := by
  obtain ⟨r, hrmem, hrq⟩ := halt
  have hrf : r ∈ cands.filter (fun r => decide (r ≠ q)) :=
    List.mem_filter.mpr ⟨hrmem, by simp [hrq]⟩
  have hne : cands.filter (fun r => decide (r ≠ q)) ≠ [] :=
    List.ne_nil_of_mem hrf
  rw [randomSelect] at hp
  simp only [List.isEmpty_iff] at hp
  rw [if_neg hne] at hp
  obtain ⟨p2, hp2, hp2mem⟩ := hrng _ hne
  rw [hp2] at hp
  cases hp
  have := List.mem_filter.mp hp2mem
  simpa using this.2

lemma makeSeqAux_adjDistinct (lookup : Nat → List Peer)
    (rng : List Peer → Option Peer) (fin : Nat)
    (hrng : ∀ l : List Peer, l ≠ [] → ∃ p, rng l = some p ∧ p ∈ l) :
    ∀ fuel i prev spans,
      makeSeqAux lookup (randomSelect rng) fin fuel i prev = some spans →
      adjDistinct lookup prev spans := by
  intro fuel
  induction fuel with
  | zero =>
    intro i prev spans h
    rw [makeSeqAux] at h
    split at h
    · cases h
      trivial
    · cases h
  | succ n ih =>
    intro i prev spans h
    rw [makeSeqAux] at h
    split at h
    · cases h
      trivial
    · next hif =>
      cases hsel : randomSelect rng prev (lookup i) with
      | none =>
        simp only [hsel] at h
        cases h
      | some p =>
        simp only [hsel] at h
        cases hrest : makeSeqAux lookup (randomSelect rng) fin n
            (growSpan lookup p fin n (i + 1)) (some p) with
        | none =>
          simp only [hrest] at h
          cases h
        | some rest =>
          simp only [hrest, Option.some.injEq] at h
          subst h
          constructor
          · intro q hq halt
            subst hq
            exact randomSelect_ne_prev rng hrng q (lookup i) p hsel halt
          · exact ih _ _ _ hrest

/-! ## Helper lemmas: manager lifecycle -/

lemma mrun_cons (s : ManagerState) (e : MEvent) (es : List MEvent) :
    mrun s (e :: es) = mrun (mstep s e) es :=
  rfl

lemma mstep_refresh_alive (s : ManagerState) :
    (mstep s .refresh).alive = s.alive ∧
      (mstep s .refresh).taskRunning = s.taskRunning := by
  rw [mstep]
  split <;> simp

lemma mstep_refresh_ready (s : ManagerState) (h : s.ready = true) :
    (mstep s .refresh).ready = true := by
  rw [mstep]
  split <;> simp [h]

lemma mrun_ready_preserved (es : List MEvent) :
    ∀ s : ManagerState, s.ready = true → (mrun s es).ready = true := by
  induction es with
  | nil => intro s h; exact h
  | cons e tail ih =>
    intro s h
    rw [mrun_cons]
    cases e with
    | refresh => exact ih _ (mstep_refresh_ready s h)
    | shutdown => exact ih _ (by simp [mstep, h])
    | query => exact ih _ h

lemma mrun_no_shutdown (es : List MEvent) :
    ∀ s : ManagerState, MEvent.shutdown ∉ es →
      (mrun s es).alive = s.alive ∧
        (mrun s es).taskRunning = s.taskRunning := by
  induction es with
  | nil => intro s _; exact ⟨rfl, rfl⟩
  | cons e tail ih =>
    intro s hmem
    cases e with
    | refresh =>
      rw [mrun_cons]
      have h2 := ih (mstep s .refresh)
        (fun h => hmem (List.mem_cons_of_mem _ h))
      have h3 := mstep_refresh_alive s
      exact ⟨h2.1.trans h3.1, h2.2.trans h3.2⟩
    | shutdown => exact absurd (List.mem_cons_self _ _) hmem
    | query =>
      rw [mrun_cons]
      exact ih s (fun h => hmem (List.mem_cons_of_mem _ h))

/-! ## Helper lemmas: cached stepping -/

lemma runBlocksStep_length {C : Type} (bs : List (CBlock C)) :
    ∀ (cs : List (Option C)) (x : Tensor),
      (runBlocksStep bs cs x).2.length = bs.length := by
  induction bs with
  | nil => intro cs x; rfl
  | cons b bs ih =>
    intro cs x
    cases cs with
    | nil => simp [runBlocksStep, ih]
    | cons c cs => simp [runBlocksStep, ih]

lemma runBlocksStep_append {C : Type} (bs₁ bs₂ : List (CBlock C)) :
    ∀ (cs₁ cs₂ : List (Option C)) (x : Tensor), cs₁.length = bs₁.length →
      runBlocksStep (bs₁ ++ bs₂) (cs₁ ++ cs₂) x =
        ((runBlocksStep bs₂ cs₂ (runBlocksStep bs₁ cs₁ x).1).1,
          (runBlocksStep bs₁ cs₁ x).2 ++
            (runBlocksStep bs₂ cs₂ (runBlocksStep bs₁ cs₁ x).1).2) := by
  induction bs₁ with
  | nil =>
    intro cs₁ cs₂ x hlen
    have hnil : cs₁ = [] := List.eq_nil_of_length_eq_zero hlen
    subst hnil
    simp [runBlocksStep]
  | cons b bs ih =>
    intro cs₁ cs₂ x hlen
    cases cs₁ with
    | nil => simp at hlen
    | cons c cs =>
      simp only [List.cons_append, runBlocksStep, List.append_eq]
      rw [ih cs cs₂ (b.step c x).1 (by simpa using hlen)]

/-- One session `step` over aligned per-span caches produces the same
output and (flattened) the same caches as the local per-block step, and
keeps the caches aligned. -/
lemma runSpansStep_flatten {C : Type}
    {spans : List (List (CBlock C))} {cs : List (List (Option C))}
    (hal : Aligned spans cs) (x : Tensor) :
    (runSpansStep spans cs x).1 =
        (runBlocksStep spans.flatten cs.flatten x).1 ∧
      (runSpansStep spans cs x).2.flatten =
        (runBlocksStep spans.flatten cs.flatten x).2 ∧
      Aligned spans (runSpansStep spans cs x).2 := by
  induction hal generalizing x with
  | nil =>
    exact ⟨rfl, rfl, List.Forall₂.nil⟩
  | cons hlen htail ih =>
    next s c ss cs' =>
    have happ := runBlocksStep_append s ss.flatten c cs'.flatten x hlen
    have ihx := ih (runBlocksStep s c x).1
    refine ⟨?_, ?_, ?_⟩
    · show (runSpansStep ss cs' (runBlocksStep s c x).1).1 = _
      rw [List.flatten_cons, List.flatten_cons, happ]
      exact ihx.1
    · show (runBlocksStep s c x).2 ++
          (runSpansStep ss cs' (runBlocksStep s c x).1).2.flatten = _
      rw [List.flatten_cons, List.flatten_cons, happ]
      rw [ihx.2.1]
    · exact List.Forall₂.cons (runBlocksStep_length s c x) ihx.2.2

/-- Session-side multi-step decoding over aligned caches equals the local
reference that carries flat per-block caches. -/
lemma sessionSteps_eq_localSteps {C : Type}
    (xs : List Tensor) :
    ∀ {spans : List (List (CBlock C))} {cs : List (List (Option C))},
      Aligned spans cs →
      sessionSteps spans cs xs = localSteps spans.flatten cs.flatten xs := by
  induction xs with
  | nil => intro spans cs _; rfl
  | cons x xs ih =>
    intro spans cs hal
    obtain ⟨h1, h2, h3⟩ := runSpansStep_flatten hal x
    show (runSpansStep spans cs x).1 ::
        sessionSteps spans (runSpansStep spans cs x).2 xs = _
    rw [h1, ih h3, h2]
    rfl

lemma initCaches_aligned {C : Type} (spans : List (List (CBlock C))) :
    Aligned spans (initCaches spans) := by
  induction spans with
  | nil => exact List.Forall₂.nil
  | cons s ss ih =>
    exact List.Forall₂.cons (by simp) ih

lemma initCaches_flatten {C : Type} (spans : List (List (CBlock C))) :
    (initCaches spans).flatten =
      spans.flatten.map (fun _ => (none : Option C)) := by
  rw [initCaches, ← List.map_flatten]

/-! ## Helper lemmas: prompts -/

lemma addPrompt_length : ∀ (p : List ℚ) (h : Tensor),
    (addPrompt p h).length = h.length := by
  intro p
  induction p with
  | nil => intro h; rfl
  | cons a ps ih =>
    intro h
    cases h with
    | nil => rfl
    | cons x xs => simp [addPrompt, ih]

lemma localPromptForward_append (l₁ l₂ : List (Block × Tensor)) (h : Tensor) :
    localPromptForward (l₁ ++ l₂) h =
      localPromptForward l₂ (localPromptForward l₁ h) := by
  induction l₁ generalizing h with
  | nil => rfl
  | cons bp rest ih =>
    rw [List.cons_append]
    show localPromptForward (rest ++ l₂) (bp.1.f (addPrompt bp.2 h)) = _
    rw [ih]
    rfl

lemma chainPromptForward_eq (spans : List (List (Block × Tensor))) (h : Tensor) :
    chainPromptForward spans h = localPromptForward spans.flatten h := by
  induction spans generalizing h with
  | nil => rfl
  | cons s ss ih =>
    rw [List.flatten_cons, localPromptForward_append]
    show chainPromptForward ss (localPromptForward s h) = _
    rw [ih]

lemma localPromptBackward_append (l₂ : List (Block × Tensor)) (g : Tensor) :
    ∀ (l₁ : List (Block × Tensor)) (h : Tensor),
      localPromptBackward (l₁ ++ l₂) h g =
        ((localPromptBackward l₁ h
            (localPromptBackward l₂ (localPromptForward l₁ h) g).1).1,
          (localPromptBackward l₁ h
              (localPromptBackward l₂ (localPromptForward l₁ h) g).1).2 ++
            (localPromptBackward l₂ (localPromptForward l₁ h) g).2) := by
  intro l₁
  induction l₁ with
  | nil =>
    intro h
    simp [localPromptBackward, localPromptForward]
  | cons bp rest ih =>
    intro h
    simp only [List.cons_append, localPromptBackward, localPromptForward,
      List.append_eq]
    rw [ih]

lemma chainPromptBackward_eq (spans : List (List (Block × Tensor)))
    (h g : Tensor) :
    chainPromptBackward spans h g = localPromptBackward spans.flatten h g := by
  induction spans generalizing h g with
  | nil => rfl
  | cons s ss ih =>
    rw [List.flatten_cons, localPromptBackward_append]
    show ((localPromptBackward s h
        (chainPromptBackward ss (localPromptForward s h) g).1).1, _) = _
    rw [ih]

/-! ## Helper lemmas: selection -/

lemma headSelect_mem (c : List Peer) (hc : c ≠ []) :
    ∃ p, c.head? = some p ∧ p ∈ c := by
  cases c with
  | nil => exact absurd rfl hc
  | cons a as => exact ⟨a, rfl, List.mem_cons_self a as⟩

/-! ## Claims -/

/-- C1: For every valid layer range `[start, fin)` and input tensor,
executing forward through the materialized Sequence of remote blocks and
then backward produces outputs within 1e-4 and input gradients within
1e-3 (and even 1e-4, as in the direct chained test) of a local sequential
forward/backward execution of the same blocks with the same inputs. -/
theorem forward_backward_matches_local_reference
    (model : Nat → Block) (start fin : Nat) (spans : List (List Block))
    (x g : Tensor)
    (hspans : spans.flatten = rangeBlocks model start fin) :
    allclose (chainForward spans x)
        (localForward (rangeBlocks model start fin) x) (1 / 10000) ∧
      allclose (chainBackward spans x g)
        (localBackward (rangeBlocks model start fin) x g) (1 / 1000) ∧
      allclose (chainBackward spans x g)
        (localBackward (rangeBlocks model start fin) x g) (1 / 10000) := by
  refine ⟨?_, ?_, ?_⟩
  · refine allclose_of_eq _ (by norm_num) ?_
    rw [chainForward_eq_localForward, hspans]
  · refine allclose_of_eq _ (by norm_num) ?_
    rw [chainBackward_eq_localBackward, hspans]
  · refine allclose_of_eq _ (by norm_num) ?_
    rw [chainBackward_eq_localBackward, hspans]

/-- C1 witness: the two-span sequence over blocks 3, 4, 5. -/
theorem forward_backward_matches_local_reference_witness :
    wSpans.flatten = rangeBlocks wBlock 3 6 ∧
      (allclose (chainForward wSpans [1, 2])
          (localForward (rangeBlocks wBlock 3 6) [1, 2]) (1 / 10000) ∧
        allclose (chainBackward wSpans [1, 2] [1, 1])
          (localBackward (rangeBlocks wBlock 3 6) [1, 2] [1, 1]) (1 / 1000) ∧
        allclose (chainBackward wSpans [1, 2] [1, 1])
          (localBackward (rangeBlocks wBlock 3 6) [1, 2] [1, 1]) (1 / 10000)) :=
  ⟨rfl, forward_backward_matches_local_reference wBlock 3 6 wSpans
    [1, 2] [1, 1] rfl⟩

/-- C2: For every inference session over a pinned chain of blocks and every
sequence of single-position inputs fed via `step` in order, the per-step
outputs equal — and concatenated stay within 1e-4 of — the outputs of a
local reference execution of the same blocks that carries a per-block
key/value cache across steps. -/
theorem inference_session_matches_cached_reference {C : Type}
    (spans : List (List (CBlock C))) (blocks : List (CBlock C))
    (xs : List Tensor) (hspans : spans.flatten = blocks) :
    sessionSteps spans (initCaches spans) xs =
        localSteps blocks (blocks.map (fun _ => none)) xs ∧
      allclose (sessionSteps spans (initCaches spans) xs).flatten
        (localSteps blocks (blocks.map (fun _ => none)) xs).flatten
        (1 / 10000) := by
  have heq : sessionSteps spans (initCaches spans) xs =
      localSteps spans.flatten (initCaches spans).flatten xs :=
    sessionSteps_eq_localSteps xs (initCaches_aligned spans)
  rw [initCaches_flatten] at heq
  subst hspans
  exact ⟨heq, allclose_of_eq _ (by norm_num) (by rw [heq])⟩

/-- C2 witness: a two-span pinned chain over two cached blocks, two steps. -/
theorem inference_session_matches_cached_reference_witness :
    wCSpans.flatten = [wCBlock 3, wCBlock 4] ∧
      (sessionSteps wCSpans (initCaches wCSpans) [[1], [2]] =
          localSteps [wCBlock 3, wCBlock 4]
            ([wCBlock 3, wCBlock 4].map (fun _ => none)) [[1], [2]] ∧
        allclose (sessionSteps wCSpans (initCaches wCSpans) [[1], [2]]).flatten
          (localSteps [wCBlock 3, wCBlock 4]
            ([wCBlock 3, wCBlock 4].map (fun _ => none)) [[1], [2]]).flatten
          (1 / 10000)) :=
  ⟨rfl, inference_session_matches_cached_reference wCSpans
    [wCBlock 3, wCBlock 4] [[1], [2]] rfl⟩

/-- C3: For every valid range `[start, fin)`, `make_sequence` returns an
ordered list of spans that is contiguous, gap-free and non-overlapping, and
whose union of layer indices is exactly `[start, fin)`. -/
theorem make_sequence_contiguous_cover (lookup : Nat → List Peer)
    (select : Option Peer → List Peer → Option Peer) (start fin : Nat)
    (hrange : start ≤ fin)
    (hsel : ∀ prev c, c ≠ [] → ∃ p, select prev c = some p ∧ p ∈ c)
    (hlook : ∀ j, start ≤ j → j < fin → lookup j ≠ []) :
    ∃ spans, makeSequence lookup select start fin = some spans ∧
      contiguousCover spans start fin ∧
      (spans.map spanLayers).flatten = List.range' start (fin - start) := by
  obtain ⟨spans, h1, h2⟩ :=
    makeSequence_covers lookup select start fin hrange hsel hlook
  exact ⟨spans, h1, h2, contiguousCover_flatten h2⟩

/-- C3 witness: the spec §8 scenario — blocks `[3,6)` over a swarm where
peer 0 serves `[0,5)` and peer 1 serves `[5,10)`. -/
theorem make_sequence_contiguous_cover_witness :
    3 ≤ 6 ∧
      (∀ prev c, c ≠ [] →
        ∃ p, (fun (_ : Option Peer) (c : List Peer) => c.head?) prev c =
            some p ∧ p ∈ c) ∧
      (∀ j, 3 ≤ j → j < 6 → wLookup j ≠ []) ∧
      (∃ spans,
        makeSequence wLookup (fun _ c => c.head?) 3 6 = some spans ∧
          contiguousCover spans 3 6 ∧
          (spans.map spanLayers).flatten = List.range' 3 (6 - 3)) := by
  refine ⟨by norm_num, fun prev c hc => headSelect_mem c hc, ?_, ?_⟩
  · intro j h1 h2
    rw [wLookup]
    split <;> simp
  · exact make_sequence_contiguous_cover wLookup (fun _ c => c.head?) 3 6
      (by norm_num) (fun prev c hc => headSelect_mem c hc)
      (by intro j h1 h2; rw [wLookup]; split <;> simp)

/-- C4: For every sequence returned by `make_sequence` under `random` mode,
any adjacent pair of spans for which an alternative candidate peer was
available at the later span's first layer is assigned distinct peer
identities. -/
theorem random_mode_adjacent_spans_distinct (lookup : Nat → List Peer)
    (rng : List Peer → Option Peer) (start fin : Nat) (spans : List Span)
    (hrng : ∀ l : List Peer, l ≠ [] → ∃ p, rng l = some p ∧ p ∈ l)
    (h : makeSequence lookup (randomSelect rng) start fin = some spans) :
    adjDistinct lookup none spans :=
  makeSeqAux_adjDistinct lookup rng fin hrng (fin - start) start none spans h

/-- C4 witness: peers 0 and 1 both serve `[0,2)`, only peer 1 serves
`[2,4)`; random mode with a head-picking rng yields two spans with distinct
peers. -/
theorem random_mode_adjacent_spans_distinct_witness :
    (∀ l : List Peer, l ≠ [] → ∃ p, l.head? = some p ∧ p ∈ l) ∧
      makeSequence wLookupR (randomSelect List.head?) 0 4 =
        some [(0, 2, 0), (2, 4, 1)] ∧
      adjDistinct wLookupR none [(0, 2, 0), (2, 4, 1)] :=
  ⟨fun l hl => headSelect_mem l hl, by decide,
    random_mode_adjacent_spans_distinct wLookupR List.head? 0 4
      [(0, 2, 0), (2, 4, 1)] (fun l hl => headSelect_mem l hl) (by decide)⟩

/-- C5: `shutdown()` is idempotent — a second call produces the same state,
`is_alive()` returns false after `shutdown()`, and the background refresh
task is stopped once `shutdown()` has returned. -/
theorem shutdown_idempotent_and_stops_task (s : ManagerState) :
    mstep (mstep s .shutdown) .shutdown = mstep s .shutdown ∧
      isAlive (mstep s .shutdown) = false ∧
      (mstep s .shutdown).taskRunning = false :=
  ⟨rfl, rfl, rfl⟩

/-- C7: For every forward pass with per-layer prompt tensors supplied, the
chain output is within 1e-3 of a reference execution in which, before each
block runs, that block's prompt is added elementwise to the first
`pre_seq_len` positions of the hidden state (which keeps the hidden
state's shape unchanged), and the prompt gradients are within 1e-2 of the
reference prompt gradients. -/
theorem prompts_injected_per_block_and_grads_flow
    (spans : List (List (Block × Tensor))) (layers : List (Block × Tensor))
    (h g : Tensor) (hspans : spans.flatten = layers) :
    allclose (chainPromptForward spans h) (localPromptForward layers h)
        (1 / 1000) ∧
      (chainPromptBackward spans h g).2.length =
        (localPromptBackward layers h g).2.length ∧
      (∀ pq ∈ (chainPromptBackward spans h g).2.zip
          (localPromptBackward layers h g).2,
        allclose pq.1 pq.2 (1 / 100)) ∧
      (∀ (p : List ℚ) (t : Tensor), (addPrompt p t).length = t.length) := by
  subst hspans
  have hf := chainPromptForward_eq spans h
  have hb := chainPromptBackward_eq spans h g
  refine ⟨allclose_of_eq _ (by norm_num) hf, by rw [hb], ?_, addPrompt_length⟩
  intro pq hpq
  rw [hb] at hpq
  have := mem_zip_self hpq
  rw [this]
  exact allclose_refl _ _ (by norm_num)

/-- C7 witness: two single-block spans with one-component prompts. -/
theorem prompts_injected_per_block_and_grads_flow_witness :
    wPSpans.flatten = [(wBlock 0, [1]), (wBlock 1, [2])] ∧
      (allclose (chainPromptForward wPSpans [1, 2])
          (localPromptForward [(wBlock 0, [1]), (wBlock 1, [2])] [1, 2])
          (1 / 1000) ∧
        (chainPromptBackward wPSpans [1, 2] [1, 1]).2.length =
          (localPromptBackward [(wBlock 0, [1]), (wBlock 1, [2])]
            [1, 2] [1, 1]).2.length ∧
        (∀ pq ∈ (chainPromptBackward wPSpans [1, 2] [1, 1]).2.zip
            (localPromptBackward [(wBlock 0, [1]), (wBlock 1, [2])]
              [1, 2] [1, 1]).2,
          allclose pq.1 pq.2 (1 / 100)) ∧
        (∀ (p : List ℚ) (t : Tensor), (addPrompt p t).length = t.length)) :=
  ⟨rfl, prompts_injected_per_block_and_grads_flow wPSpans
    [(wBlock 0, [1]), (wBlock 1, [2])] [1, 2] [1, 1] rfl⟩

/-- C8: while the manager is alive and before any shutdown, once the first
directory population by the background refresh task has completed, the
readiness signal is set (so callers can block on it before the first
`make_sequence`). -/
theorem readiness_set_after_first_refresh (es : List MEvent)
    (href : MEvent.refresh ∈ es) (hshut : MEvent.shutdown ∉ es) :
    (mrun initialManager es).ready = true ∧
      isAlive (mrun initialManager es) = true := by
  constructor
  · induction es with
    | nil => cases href
    | cons e tail ih =>
      cases e with
      | refresh =>
        rw [mrun_cons]
        apply mrun_ready_preserved
        rw [mstep]
        simp [initialManager]
      | shutdown => exact absurd (List.mem_cons_self _ _) hshut
      | query =>
        rw [mrun_cons]
        have htail : MEvent.refresh ∈ tail := by
          rcases List.mem_cons.mp href with h | h
          · cases h
          · exact h
        exact ih htail (fun h => hshut (List.mem_cons_of_mem _ h))
  · show (mrun initialManager es).alive = true
    rw [(mrun_no_shutdown es initialManager hshut).1]
    rfl

/-- C8 witness: a refresh followed by a read-only query. -/
theorem readiness_set_after_first_refresh_witness :
    MEvent.refresh ∈ [MEvent.refresh, MEvent.query] ∧
      MEvent.shutdown ∉ [MEvent.refresh, MEvent.query] ∧
      ((mrun initialManager [MEvent.refresh, MEvent.query]).ready = true ∧
        isAlive (mrun initialManager [MEvent.refresh, MEvent.query]) = true) :=
  ⟨by decide, by decide,
    readiness_set_after_first_refresh [MEvent.refresh, MEvent.query]
      (by decide) (by decide)⟩

/-- C9: slicing is compositional — the lengths of the two slices sum to the
whole, and running blocks `[0,k)` then `[k,n)` as a two-hop chain yields
the same output (within 1e-4) and the same input gradients (within 1e-3)
as one pass through the whole list. -/
theorem slicing_compositional (blocks : List Block) (k : Nat)
    (x g : Tensor) :
    (blocks.take k).length + (blocks.drop k).length = blocks.length ∧
      allclose (chainForward [blocks.take k, blocks.drop k] x)
        (localForward blocks x) (1 / 10000) ∧
      allclose (chainBackward [blocks.take k, blocks.drop k] x g)
        (localBackward blocks x g) (1 / 1000) := by
  have hflat : ([blocks.take k, blocks.drop k] : List (List Block)).flatten =
      blocks := by
    simp [List.take_append_drop]
  refine ⟨?_, ?_, ?_⟩
  · rw [List.length_take, List.length_drop]
    omega
  · refine allclose_of_eq _ (by norm_num) ?_
    rw [chainForward_eq_localForward, hflat]
  · refine allclose_of_eq _ (by norm_num) ?_
    rw [chainBackward_eq_localBackward, hflat]

/-- C10: `measure_throughput_info` returns the minimum of the compute rate
and the network rate when the network measurement succeeds; when it raises
(in particular `measure_network_rps` raising ValueError on a measured rate
of 0) the error is caught and the compute-only rate is returned. -/
theorem measure_throughput_info_min_and_fallback (compute d u hs : ℚ) :
    (∀ n, measure_network_rps d u hs = Except.ok n →
        measure_throughput_info compute (measure_network_rps d u hs) =
          min compute n) ∧
      (∀ e, measure_network_rps d u hs = Except.error e →
        measure_throughput_info compute (measure_network_rps d u hs) =
          compute) ∧
      (min d u / (hs * 16) = 0 →
        ∃ e, measure_network_rps d u hs = Except.error e) := by
  refine ⟨?_, ?_, ?_⟩
  · intro n hn
    rw [hn]
    rfl
  · intro e he
    rw [he]
    rfl
  · intro h0
    refine ⟨"speedtest has returned network_rps == 0", ?_⟩
    rw [measure_network_rps]
    simp only [h0, if_pos]

/-- C10 witness: a zero download rate makes the network measurement raise,
and the compute-only rate 5 is returned. -/
theorem measure_throughput_info_min_and_fallback_witness :
    min (0 : ℚ) 8 / ((2 : ℚ) * 16) = 0 ∧
      (∃ e, measure_network_rps 0 8 2 = Except.error e) ∧
      measure_throughput_info 5 (measure_network_rps 0 8 2) = 5 := by
  have h0 : min (0 : ℚ) 8 / ((2 : ℚ) * 16) = 0 := by norm_num
  obtain ⟨e, he⟩ := (measure_throughput_info_min_and_fallback 5 0 8 2).2.2 h0
  exact ⟨h0, ⟨e, he⟩,
    (measure_throughput_info_min_and_fallback 5 0 8 2).2.1 e he⟩

end Petals
